import Mathlib

/-!
Shallow embedding of the core of a Bitcoin-Script execution substrate:
the scriptint codec (`src/utils.rs`), the value stack
(`src/data_structures.rs`), the condition stack (`src/utils.rs`) and the
weight profiler (`src/profiler.rs`).

Machine integers are modelled as `Nat`/`Int`; `i64` arithmetic that can
wrap in release-mode Rust is routed through `wrap64`.  Bytes are `Nat`s
(with `< 256` hypotheses where a claim quantifies over byte strings).
Fallible operations return `Except`.
-/

deriving instance DecidableEq for Except

set_option maxRecDepth 8000

/-- Two's-complement wrap into the `i64` range, modelling release-mode
Rust wrapping arithmetic. -/
def wrap64 (x : Int) : Int := (x + 2 ^ 63) % 2 ^ 64 - 2 ^ 63

/-- Ways parsing script integers might fail (`ScriptIntError` in
`src/data_structures.rs`). -/
inductive ScriptIntError where
  | NonMinimalPush
  | NumericOverflow
deriving DecidableEq, Repr

/-- Little-endian value of a byte string: the reference sum
`Σ v[i] * 2^(8*i)` used to reason about `scriptint_parse`. -/
def bval : List Nat → Nat
  | [] => 0
  | b :: rest => b + 256 * bval rest

/-- The fold step inside `scriptint_parse`
(`(acc + ((*n as i64) << sh), sh + 8)`, with `i64` wrapping). -/
def parseStep (acc : Int × Nat) (n : Nat) : Int × Nat :=
  (wrap64 (acc.1 + wrap64 ((n : Int) * 2 ^ acc.2)), acc.2 + 8)

/-- `scriptint_parse` from `src/utils.rs`: little-endian accumulation of the
bytes into an `i64` (shifts-and-adds, wrapping), then if the final byte's
high bit is set, mask that bit out of the accumulated value
(`ret &= (1 << (sh - 1)) - 1`, with the `1 << 63` and `- 1` wrapping for
eight-byte inputs) and negate.  Caller guarantees `v` is nonempty. -/
def scriptint_parse (v : List Nat) : Int :=
  let p := v.foldl parseStep (0, 0)
  if v.getLastD 0 &&& 0x80 ≠ 0 then
    -(Int.land p.1 (wrap64 (wrap64 (2 ^ (p.2 - 1)) - 1)))
  else
    p.1

/-- `read_scriptint_size` from `src/utils.rs`.  The source begins with
`assert!(max_size <= 8)`; theorems about this function carry `max_size ≤ 8`. -/
def read_scriptint_size (v : List Nat) (max_size : Nat) (minimal : Bool) :
    Except ScriptIntError Int :=
  if v.length > max_size then .error .NumericOverflow
  else if v.length = 0 then .ok 0
  else if minimal then
    -- if the most-significant byte, excluding the sign bit, is zero
    -- then the encoding is not minimal ...
    if v.getLastD 0 &&& 0x7f = 0 then
      -- ... unless there is more than one byte and the high bit of the
      -- second-most-significant byte is set
      if v.length ≤ 1 ∨ v.getD (v.length - 2) 0 &&& 0x80 = 0 then
        .error .NonMinimalPush
      else .ok (scriptint_parse v)
    else .ok (scriptint_parse v)
  else .ok (scriptint_parse v)

/-- Modelled from the spec: the encoder behind `scriptint_vec` is
`write_scriptint` from the `bitcoin` crate, which is not under `src/`.
Spec §4.3: emit the magnitude bytes little-endian; append an extra
`0x00`/`0x80` byte only when the natural high bit of the last magnitude
byte would otherwise be mistaken for the sign bit, otherwise set the sign
bit on the last magnitude byte itself.  The source's `while abs > 0xFF`
loop is bounded by the 8-byte output buffer, modelled here by a structural
fuel argument (8 at the top entry point). -/
def encodeMag : Nat → Nat → Bool → List Nat
  | 0, _, _ => []
  | fuel + 1, a, neg =>
    if 255 < a then (a % 256) :: encodeMag fuel (a / 256) neg
    else if a &&& 0x80 ≠ 0 then [a, if neg then 0x80 else 0x00]
    else [a + (if neg then 0x80 else 0x00)]

/-- Modelled from the spec: `scriptint_vec` from `src/utils.rs` returns the
minimally encoded scriptint of `n` (via the `bitcoin` crate's
`write_scriptint`); the value `0` encodes to the empty byte string. -/
def scriptint_vec (n : Int) : List Nat :=
  if n = 0 then [] else encodeMag 8 n.natAbs (decide (n < 0))

/-- What `encodeMag` guarantees about the emitted byte string `L` for a
positive magnitude `a` with sign `neg`: nonempty bytes, value
`a` plus the sign bit, magnitude below the sign bit, a length lower bound,
the sign bit of the last byte, and the minimal-encoding side conditions
checked by `read_scriptint_size`. -/
def EncSpec (a : Nat) (neg : Bool) (L : List Nat) : Prop :=
  L ≠ [] ∧
  (∀ b ∈ L, b < 256) ∧
  bval L = a + (if neg then 2 ^ (8 * L.length - 1) else 0) ∧
  a < 2 ^ (8 * L.length - 1) ∧
  (2 ≤ L.length → 2 ^ (8 * (L.length - 1) - 1) ≤ a) ∧
  L.getLastD 0 &&& 128 = (if neg then 128 else 0) ∧
  (L.getLastD 0 &&& 127 ≠ 0 ∨
    (2 ≤ L.length ∧ L.getD (L.length - 2) 0 &&& 128 ≠ 0))

/-- Stack-level errors (`ExecError` in the crate root).  Modelled from the
spec: `ExecError` and `read_scriptint` live in `lib.rs`, which is not under
`src/`; spec §7 names the stack-level kinds (`InvalidStackOperation`, the
stack-level numeric overflow, and the non-minimal-push rejection). -/
inductive ExecError where
  | InvalidStackOperation
  | ScriptIntNumericOverflow
  | ScriptIntNonMinimalPush
deriving DecidableEq, Repr

/-- Modelled from the spec: `read_scriptint` (crate root, not under `src/`)
decodes via `read_scriptint_size`, surfacing codec errors as the
corresponding stack-level errors (spec §4.1 and §7). -/
def read_scriptint (v : List Nat) (size : Nat) (minimal : Bool) : Except ExecError Int :=
  match read_scriptint_size v size minimal with
  | .ok n => .ok n
  | .error .NumericOverflow => .error .ScriptIntNumericOverflow
  | .error .NonMinimalPush => .error .ScriptIntNonMinimalPush

/-- `StackEntry` from `src/data_structures.rs`: a native integer or a byte
buffer.  The `Rc<RefCell<_>>` sharing is not observable through the
operations modelled here (none of them mutates a buffer in place), so a
buffer is modelled by its byte list. -/
inductive StackEntry where
  | Num (v : Int)
  | StrRef (v : List Nat)
deriving DecidableEq, Repr

/-- `Stack` from `src/data_structures.rs`: the underlying `Vec`, bottom of
the stack at index 0. -/
structure Stack where
  entries : List StackEntry
deriving DecidableEq, Repr

def Stack.new : Stack := ⟨[]⟩

/-- `Stack::top`: `len().checked_sub(offset.unsigned_abs())` then index.
The source `debug_assert!`s `offset < 0`; for such offsets the `checked_sub`
failure (`|offset| > len`) is the only way to miss, and the subsequent
`Vec` index always hits. -/
def Stack.top (s : Stack) (offset : Int) : Except ExecError StackEntry :=
  if offset.natAbs ≤ s.entries.length then
    match s.entries.get? (s.entries.length - offset.natAbs) with
    | some e => .ok e
    | none => .ok (.Num 0)   -- unreachable for offset < 0 (a Vec index panic otherwise)
  else .error .InvalidStackOperation

/-- `Stack::topnum`: a numeric entry must not exceed `i32::MAX`
(`2147483647`); a byte entry decodes through the codec with a 4-byte
ceiling. -/
def Stack.topnum (s : Stack) (offset : Int) (require_minimal : Bool) :
    Except ExecError Int :=
  match s.top offset with
  | .error e => .error e
  | .ok (.Num v) => if v ≤ 2147483647 then .ok v else .error .ScriptIntNumericOverflow
  | .ok (.StrRef v) => read_scriptint v 4 require_minimal

def Stack.pushnum (s : Stack) (num : Int) : Stack := ⟨s.entries ++ [.Num num]⟩

def Stack.pushstr (s : Stack) (v : List Nat) : Stack := ⟨s.entries ++ [.StrRef v]⟩

/-- `Stack::popn`: pop one entry at a time, `n` times; a failed pop returns
`InvalidStackOperation` at once, with the entries already popped not
restored.  Modelled as the result paired with the final stack (the `&mut
self` state). -/
def Stack.popn (s : Stack) (n : Nat) : Except ExecError Unit × Stack :=
  match n with
  | 0 => (.ok (), s)
  | k + 1 =>
    match s.entries.getLast? with
    | none => (.error .InvalidStackOperation, s)
    | some _ => Stack.popn ⟨s.entries.dropLast⟩ k

/-- `Stack::popnum`: pop the top entry (or fail), then convert exactly as
`topnum` does. -/
def Stack.popnum (s : Stack) (require_minimal : Bool) :
    Except ExecError Int × Stack :=
  match s.entries.getLast? with
  | none => (.error .InvalidStackOperation, s)
  | some e =>
    match e with
    | .Num v =>
      ((if v ≤ 2147483647 then .ok v else .error .ScriptIntNumericOverflow),
        ⟨s.entries.dropLast⟩)
    | .StrRef v => (read_scriptint v 4 require_minimal, ⟨s.entries.dropLast⟩)

/-- `ConditionStack` from `src/utils.rs`: the size of the implied boolean
stack and the position of its first false value.  The `NO_FALSE` sentinel
(`usize::MAX`) is modelled by `none`. -/
structure ConditionStack where
  size : Nat
  first_false_pos : Option Nat
deriving DecidableEq, Repr

def ConditionStack.new : ConditionStack := ⟨0, none⟩

def ConditionStack.all_true (cs : ConditionStack) : Bool :=
  cs.first_false_pos = none

def ConditionStack.push (cs : ConditionStack) (v : Bool) : ConditionStack :=
  { size := cs.size + 1
    first_false_pos :=
      if cs.first_false_pos = none ∧ v = false then some cs.size
      else cs.first_false_pos }

/-- `ConditionStack::pop`: returns the updated stack and whether a pop
occurred. -/
def ConditionStack.pop (cs : ConditionStack) : ConditionStack × Bool :=
  if cs.size = 0 then (cs, false)
  else
    ({ size := cs.size - 1
       first_false_pos :=
         if cs.first_false_pos = some (cs.size - 1) then none
         else cs.first_false_pos }, true)

def ConditionStack.toggle_top (cs : ConditionStack) : ConditionStack × Bool :=
  if cs.size = 0 then (cs, false)
  else
    ({ size := cs.size
       first_false_pos :=
         if cs.first_false_pos = none then some (cs.size - 1)
         else if cs.first_false_pos = some (cs.size - 1) then none
         else cs.first_false_pos }, true)

/-- One call in a sequence of condition-stack operations. -/
inductive CondOp where
  | push (v : Bool)
  | pop
  | toggle_top
deriving DecidableEq, Repr

def condStep (cs : ConditionStack) : CondOp → ConditionStack
  | .push v => cs.push v
  | .pop => cs.pop.1
  | .toggle_top => cs.toggle_top.1

/-- Apply a sequence of calls to a `ConditionStack` created by `new()`. -/
def condRun (ops : List CondOp) : ConditionStack :=
  ops.foldl condStep ConditionStack.new

/-- The reference model in the claim's words: a literal list of booleans
(bottom first); `push` appends, `pop` removes the last element if any,
`toggle_top` negates the last element if any. -/
def refStep (l : List Bool) : CondOp → List Bool
  | .push v => l ++ [v]
  | .pop => l.dropLast
  | .toggle_top => if l = [] then l else l.dropLast ++ [!(l.getLastD false)]

def refRun (ops : List CondOp) : List Bool :=
  ops.foldl refStep []

/-- The coupling invariant between a `ConditionStack` and the reference
list: sizes agree, and `first_false_pos` is `none` exactly on an all-true
list, otherwise it points at the lowest false entry (everything below it
true). -/
def CondInv (cs : ConditionStack) (l : List Bool) : Prop :=
  cs.size = l.length ∧
  ((cs.first_false_pos = none ∧ ∀ b ∈ l, b = true) ∨
    (∃ p l₁ l₂, cs.first_false_pos = some p ∧ l = l₁ ++ false :: l₂ ∧
      l₁.length = p ∧ ∀ b ∈ l₁, b = true))

/-- Profiler stages (`Stage` in `src/profiler.rs`). -/
inductive Stage where
  | Pending
  | WaitingForPushbytesToStart
  | WaitingForDropToStart
  | WaitingForPushbytesToEnd
  | WaitingForDropToEnd
deriving DecidableEq, Repr

/-- An instruction from the decoder (spec §6): a byte-push or an opcode.
Opcodes are modelled by their byte value. -/
inductive Instruction where
  | PushBytes (v : List Nat)
  | Op (opcode : Nat)
deriving DecidableEq, Repr

def OP_NOP9 : Nat := 0xb8
def OP_NOP10 : Nat := 0xb9
def OP_DROP : Nat := 0x75

/-- `Profiler` from `src/profiler.rs`.  `IndexMap<String, Vec<usize>>` is
modelled as an insertion-ordered association list; labels are modelled by
the pushed byte sequences (the `String::from_utf8_lossy` conversion is the
identity on the ASCII labels the claims use). -/
structure Profiler where
  count : List (List Nat × List Nat)
  stage : Stage
  pending_string : List Nat
  stack : List (List Nat × Nat)
  opcode_count : Nat
deriving DecidableEq, Repr

def Profiler.new : Profiler := ⟨[], .Pending, [], [], 0⟩

/-- `IndexMap::get_mut`-then-push, or `IndexMap::insert` of a fresh
singleton when the key is absent (insertion order preserved). -/
def indexMapAdd (m : List (List Nat × List Nat)) (k : List Nat) (w : Nat) :
    List (List Nat × List Nat) :=
  if m.any (fun kv => kv.1 = k) then
    m.map (fun kv => if kv.1 = k then (kv.1, kv.2 ++ [w]) else kv)
  else m ++ [(k, [w])]

/-- `Profiler::update` from `src/profiler.rs`. -/
def Profiler.update (p : Profiler) (instruction : Instruction) :
    Except String Profiler :=
  match instruction with
  | .PushBytes v =>
    if p.stage = .WaitingForPushbytesToStart then
      -- waive the weight units
      .ok { p with stage := .WaitingForDropToStart, pending_string := v }
    else if p.stage = .WaitingForPushbytesToEnd then
      -- waive the weight units
      .ok { p with stage := .WaitingForDropToEnd, pending_string := v }
    else
      -- len literal bytes, plus the push-opcode overhead
      .ok { p with opcode_count := p.opcode_count + v.length +
        (if v.length ≤ 75 then 1
         else if v.length ≤ 255 then 1 + 1
         else if v.length ≤ 65535 then 1 + 2
         else 1 + 4) }
  | .Op opcode =>
    if p.stage = .Pending then
      if opcode = OP_NOP9 then .ok { p with stage := .WaitingForPushbytesToStart }
      else if opcode = OP_NOP10 then .ok { p with stage := .WaitingForPushbytesToEnd }
      else .ok { p with opcode_count := p.opcode_count + 1 }
    else if p.stage = .WaitingForPushbytesToStart ∨ p.stage = .WaitingForPushbytesToEnd then
      .error "Expecting pushbytes after PROFILER_START or PROFILER_END. Found other opcodes."
    else
      if opcode ≠ OP_DROP then
        .error "Expecting AS_FOLLOWS after pushbytes. Found other opcodes."
      else
        if p.stage = .WaitingForDropToStart then
          .ok { p with
                stack := p.stack ++ [(p.pending_string, p.opcode_count)]
                stage := .Pending }
        else if p.stage = .WaitingForDropToEnd then
          match p.stack.getLast? with
          | some kv =>
            if kv.1 = p.pending_string then
              .ok { p with
                    count := indexMapAdd p.count kv.1 (p.opcode_count - kv.2)
                    stack := p.stack.dropLast
                    stage := .Pending }
            else .error "Ending a profiler unit that hasn't been started."
          | none => .error "Ending a profiler unit that hasn't been started."
        else .ok p

/-- `Profiler::complete` from `src/profiler.rs`. -/
def Profiler.complete (p : Profiler) : Except String Unit :=
  if p.stage ≠ .Pending then
    .error "There seems to be unfinished profiling instructions."
  else if p.stack ≠ [] then
    .error "There seems to be unclosed profiling steps."
  else .ok ()

/-- `profiler_start` from `src/profiler.rs`, modelled at the instruction
level (the `Builder`/`ScriptBuf` serialization and the instruction decoder
are out of scope, spec §6): the marker opcode, the label push, the drop. -/
def profiler_start (t : List Nat) : List Instruction :=
  [.Op OP_NOP9, .PushBytes t, .Op OP_DROP]

/-- `profiler_end` from `src/profiler.rs`, modelled at the instruction
level. -/
def profiler_end (t : List Nat) : List Instruction :=
  [.Op OP_NOP10, .PushBytes t, .Op OP_DROP]

/-- Feed a stream of instructions to `Profiler::update`, stopping at the
first error. -/
def runProfiler (instrs : List Instruction) (p : Profiler) :
    Except String Profiler :=
  match instrs with
  | [] => .ok p
  | i :: rest =>
    match p.update i with
    | .ok q => runProfiler rest q
    | .error e => .error e

/-- C3: the overflow check dominates all others in decoding: for every
`max_size` in `0..=8`, every minimality flag, and every byte string longer
than `max_size`, `read_scriptint_size` fails with `NumericOverflow`, even
when the bytes encode a small value. -/
theorem overflow_dominates (v : List Nat) (max_size : Nat) (minimal : Bool)
    (hmax : max_size ≤ 8) (hlen : max_size < v.length) (hv : ∀ b ∈ v, b < 256) :
    read_scriptint_size v max_size minimal = .error .NumericOverflow := by
  unfold read_scriptint_size
  rw [if_pos hlen]

/-- Witness for C3: a 5-byte all-zero string with `max_size = 4` decodes to
`NumericOverflow`, not `NonMinimalPush`. -/
theorem overflow_dominates_witness :
    (4 ≤ 8 ∧ 4 < ([0, 0, 0, 0, 0] : List Nat).length ∧
      ∀ b ∈ ([0, 0, 0, 0, 0] : List Nat), b < 256) ∧
    read_scriptint_size [0, 0, 0, 0, 0] 4 true = .error .NumericOverflow :=
  ⟨⟨by decide, by decide, by decide⟩,
    overflow_dominates [0, 0, 0, 0, 0] 4 true (by decide) (by decide) (by decide)⟩

/-- C7: minimality edge cases: with minimality required, `[0x00, 0x80]` is
rejected as `NonMinimalPush` (high byte's low seven bits zero, previous
byte's high bit clear), while `[0xff, 0x00]` decodes to `255` (the previous
byte's high bit is set, so the trailing zero byte is required for sign
disambiguation).  `max_size ≤ 8` is the function's asserted domain. -/
theorem minimality_edge_cases (max_size : Nat) (h2 : 2 ≤ max_size) (h8 : max_size ≤ 8) :
    read_scriptint_size [0x00, 0x80] max_size true = .error .NonMinimalPush ∧
    read_scriptint_size [0xff, 0x00] max_size true = .ok 255 := by
  interval_cases max_size <;> exact ⟨by decide, by decide⟩

/-- Witness for C7 at `max_size = 2`. -/
theorem minimality_edge_cases_witness :
    (2 ≤ 2 ∧ 2 ≤ 8) ∧
    (read_scriptint_size [0x00, 0x80] 2 true = .error .NonMinimalPush ∧
      read_scriptint_size [0xff, 0x00] 2 true = .ok 255) :=
  ⟨⟨by decide, by decide⟩, minimality_edge_cases 2 (by decide) (by decide)⟩

/-- C10: when minimality is not required, decoding never reports
`NonMinimalPush`: every byte string that passes the length check decodes to
`Ok` of some value; in particular the negative-zero encoding `[0x80]`
decodes to `0`. -/
theorem nonminimal_always_ok (v : List Nat) (max_size : Nat)
    (hmax : max_size ≤ 8) (hlen : v.length ≤ max_size) (hv : ∀ b ∈ v, b < 256) :
    (∃ k, read_scriptint_size v max_size false = .ok k) ∧
    read_scriptint_size [0x80] 8 false = .ok 0 := by
  refine ⟨⟨if v.length = 0 then 0 else scriptint_parse v, ?_⟩, by decide⟩
  unfold read_scriptint_size
  rw [if_neg (by omega)]
  by_cases h0 : v.length = 0
  · simp [h0]
  · simp [h0]

/-- Witness for C10 at `v = [0x80]`, `max_size = 1`. -/
theorem nonminimal_always_ok_witness :
    (1 ≤ 8 ∧ ([0x80] : List Nat).length ≤ 1 ∧ ∀ b ∈ ([0x80] : List Nat), b < 256) ∧
    ((∃ k, read_scriptint_size [0x80] 1 false = .ok k) ∧
      read_scriptint_size [0x80] 8 false = .ok 0) :=
  ⟨⟨by decide, by decide, by decide⟩,
    nonminimal_always_ok [0x80] 1 (by decide) (by decide) (by decide)⟩

/-- C8: profiler end-to-end scenario: feeding a fresh profiler the
instruction sequence of `region_start("a")` (the label `"a"` is the byte
`97`), one ordinary 3-byte push, and `region_end("a")`, every update
succeeds, the histogram maps the label to `[4]` (3 literal bytes plus 1
push-opcode byte; marker instructions contribute no weight), and
`complete()` succeeds. -/
theorem profiler_scenario :
    runProfiler (profiler_start [97] ++ [.PushBytes [1, 2, 3]] ++ profiler_end [97])
        Profiler.new = .ok ⟨[([97], [4])], .Pending, [97], [], 4⟩ ∧
    Profiler.complete ⟨[([97], [4])], .Pending, [97], [], 4⟩ = .ok () :=
  ⟨by decide, by decide⟩

/-- Counterexample to C5 as stated: after `OP_NOP9` and the label push the
profiler is in `WaitingForDropToStart`, and a byte-push instruction there
does NOT return a fatal sequencing error: it is accepted (`Ok`) and
counted as ordinary push weight (`3 + 1 = 4`). -/
theorem profiler_pushbytes_in_drop_state_cex :
    runProfiler [.Op 0xb8, .PushBytes [97]] Profiler.new =
      .ok ⟨[], .WaitingForDropToStart, [97], [], 0⟩ ∧
    Profiler.update ⟨[], .WaitingForDropToStart, [97], [], 0⟩ (.PushBytes [1, 2, 3]) =
      .ok ⟨[], .WaitingForDropToStart, [97], [], 4⟩ :=
  ⟨by decide, by decide⟩

/-- C5 (amended): in the `WaitingForDropToStart` and `WaitingForDropToEnd`
states, every opcode instruction other than the designated drop opcode
causes `update` to return a fatal sequencing error, and the drop opcode
itself contributes no weight (a byte-push instruction, however, is accepted
and counted as ordinary push weight). -/
theorem profiler_drop_state_behavior (p : Profiler) (op : Nat)
    (hst : p.stage = .WaitingForDropToStart ∨ p.stage = .WaitingForDropToEnd) :
    (op ≠ OP_DROP → ∃ e, p.update (.Op op) = .error e) ∧
    (∀ q, p.update (.Op OP_DROP) = .ok q → q.opcode_count = p.opcode_count) := by
  have h1 : ¬p.stage = .Pending := by rcases hst with h | h <;> simp [h]
  have h2 : ¬(p.stage = .WaitingForPushbytesToStart ∨
      p.stage = .WaitingForPushbytesToEnd) := by
    rcases hst with h | h <;> simp [h]
  constructor
  · intro hop
    refine ⟨"Expecting AS_FOLLOWS after pushbytes. Found other opcodes.", ?_⟩
    simp only [Profiler.update, if_neg h1, if_neg h2, if_pos hop]
  · intro q hq
    simp only [Profiler.update, if_neg h1, if_neg h2] at hq
    rw [if_neg (by simp : ¬OP_DROP ≠ OP_DROP)] at hq
    rcases hst with h | h
    · rw [if_pos h] at hq
      cases hq
      rfl
    · rw [if_neg (by simp [h]), if_pos h] at hq
      cases hgl : p.stack.getLast? with
      | none => simp [hgl] at hq
      | some kv =>
        by_cases hkv : kv.1 = p.pending_string
        · simp only [hgl, hkv, if_pos] at hq
          cases hq
          rfl
        · simp [hgl, hkv] at hq

/-- Witness for C5 (amended), at a concrete profiler in
`WaitingForDropToStart` and the non-drop opcode `0xb8`. -/
theorem profiler_drop_state_behavior_witness :
    ((⟨[], .WaitingForDropToStart, [97], [], 0⟩ : Profiler).stage =
        .WaitingForDropToStart ∨
      (⟨[], .WaitingForDropToStart, [97], [], 0⟩ : Profiler).stage =
        .WaitingForDropToEnd) ∧
    ((184 ≠ OP_DROP →
        ∃ e, (⟨[], .WaitingForDropToStart, [97], [], 0⟩ : Profiler).update (.Op 184) =
          .error e) ∧
      (∀ q, (⟨[], .WaitingForDropToStart, [97], [], 0⟩ : Profiler).update (.Op OP_DROP) =
          .ok q →
        q.opcode_count = (⟨[], .WaitingForDropToStart, [97], [], 0⟩ : Profiler).opcode_count)) :=
  ⟨Or.inl rfl, profiler_drop_state_behavior ⟨[], .WaitingForDropToStart, [97], [], 0⟩ 184
    (Or.inl rfl)⟩

/-- Counterexample to C4 as stated: `Num(-2^31 - 1)` lies below the signed
32-bit domain, yet `topnum(-1, _)` returns it as `Ok`, not
`NumericOverflow` — the code only checks the upper bound `i32::MAX`. -/
theorem topnum_low_value_cex :
    (Stack.new.pushnum (-2147483649)).topnum (-1) true = .ok (-2147483649) ∧
    (-2147483649 : Int) < -(2 ^ 31) :=
  ⟨by decide, by decide⟩

/-- C4 (amended): reading a numeric stack entry as a number fails with the
stack-level numeric overflow exactly when the stored `i64` exceeds
`i32::MAX = 2^31 - 1`: for every `n`, `topnum(-1, _)` and `popnum(_)` on a
stack whose top is `Num(n)` return `NumericOverflow` if `n > 2^31 - 1` and
`Ok(n)` otherwise — the lower bound `-2^31` is not checked. -/
theorem topnum_popnum_upper_bound_only (s : Stack) (n : Int) (m : Bool) :
    (s.pushnum n).topnum (-1) m =
      (if n ≤ 2147483647 then .ok n else .error .ScriptIntNumericOverflow) ∧
    (s.pushnum n).popnum m =
      ((if n ≤ 2147483647 then .ok n else .error .ScriptIntNumericOverflow), s) := by
  have hget : (s.entries ++ [StackEntry.Num n]).get? s.entries.length =
      some (.Num n) := List.get?_concat_length _ _
  constructor
  · simp only [Stack.pushnum, Stack.topnum, Stack.top]
    rw [show ((-1 : Int)).natAbs = 1 from rfl]
    rw [if_pos (show 1 ≤ (s.entries ++ [StackEntry.Num n]).length by simp)]
    rw [show (s.entries ++ [StackEntry.Num n]).length - 1 = s.entries.length by simp]
    rw [hget]
  · simp only [Stack.pushnum, Stack.popnum]
    rw [List.getLast?_concat, List.dropLast_concat]

/-- C9: `popn` removes exactly the top `n` entries when the stack is deep
enough (the bottom `d - n` entries unchanged and in order), and otherwise
fails with `InvalidStackOperation` leaving the stack empty — the entries
already popped are not restored. -/
theorem popn_exact_or_empty (s : Stack) (n : Nat) :
    s.popn n =
      if n ≤ s.entries.length then
        (.ok (), ⟨s.entries.take (s.entries.length - n)⟩)
      else (.error .InvalidStackOperation, ⟨[]⟩) := by
  induction n generalizing s with
  | zero =>
    rw [if_pos (Nat.zero_le _), Nat.sub_zero, List.take_length]
    rfl
  | succ k ih =>
    show (match s.entries.getLast? with
      | none => (Except.error ExecError.InvalidStackOperation, s)
      | some _ => Stack.popn ⟨s.entries.dropLast⟩ k) = _
    cases hgl : s.entries.getLast? with
    | none =>
      have hnil : s.entries = [] := List.getLast?_eq_none_iff.mp hgl
      rw [if_neg (by rw [hnil]; simp)]
      cases s
      simp_all
    | some e =>
      have hne : s.entries ≠ [] := by
        intro h
        rw [h] at hgl
        cases hgl
      have hpos : 1 ≤ s.entries.length := by
        cases hh : s.entries with
        | nil => exact absurd hh hne
        | cons a t => simp
      rw [ih ⟨s.entries.dropLast⟩]
      simp only [List.length_dropLast]
      by_cases hk : k + 1 ≤ s.entries.length
      · rw [if_pos (by omega), if_pos hk]
        rw [List.dropLast_eq_take, List.take_take]
        have : min (s.entries.length - 1 - k) (s.entries.length - 1) =
            s.entries.length - (k + 1) := by omega
        rw [this]
      · rw [if_neg (by omega), if_neg hk]

/-- `wrap64` is the identity on the `i64` range. -/
theorem wrap64_eq_self {x : Int} (h1 : -(2 ^ 63) ≤ x) (h2 : x < 2 ^ 63) :
    wrap64 x = x := by
  unfold wrap64
  have e1 : (2 : Int) ^ 63 = 9223372036854775808 := by norm_num
  have e2 : (2 : Int) ^ 64 = 18446744073709551616 := by norm_num
  rw [e1] at h1 h2
  rw [e1, e2]
  omega

/-- Masking with `0x7f` is reduction mod 128. -/
theorem land127 (x : Nat) : x &&& 127 = x % 128 := by
  have h := Nat.and_pow_two_sub_one_eq_mod x 7
  norm_num at h
  exact h

/-- For a byte, masking with `0x80` tests the high bit. -/
theorem land128 {x : Nat} (hx : x < 256) :
    x &&& 128 = if 128 ≤ x then 128 else 0 := by
  have h := Nat.and_two_pow x 7
  cases hb : x.testBit 7 with
  | false =>
    rw [hb] at h
    rw [Nat.testBit_to_div_mod] at hb
    simp only [decide_eq_false_iff_not] at hb
    norm_num at hb
    rw [if_neg (by omega : ¬128 ≤ x)]
    simpa using h
  | true =>
    rw [hb] at h
    rw [Nat.testBit_to_div_mod] at hb
    simp only [decide_eq_true_eq] at hb
    norm_num at hb
    rw [if_pos (by omega : 128 ≤ x)]
    simpa using h

/-- `Int.land` on two natural numbers is `Nat.land`. -/
theorem int_land_ofNat (a b : Nat) :
    Int.land (a : Int) (b : Int) = ((a &&& b : Nat) : Int) := rfl

theorem getLastD_cons_ne_nil {b : Nat} {L : List Nat} (h : L ≠ []) (d : Nat) :
    (b :: L).getLastD d = L.getLastD d := by
  cases L with
  | nil => exact absurd rfl h
  | cons x xs => simp only [List.getLastD_cons]

/-- A byte string's little-endian value is bounded by `2^(8·len)`. -/
theorem bval_lt (v : List Nat) (hv : ∀ b ∈ v, b < 256) :
    bval v < 2 ^ (8 * v.length) := by
  induction v with
  | nil => simp [bval]
  | cons b rest ih =>
    have hb : b < 256 := hv b (List.mem_cons_self _ _)
    have hr : bval rest < 2 ^ (8 * rest.length) :=
      ih (fun x hx => hv x (List.mem_cons_of_mem _ hx))
    have hp : 2 ^ (8 * (rest.length + 1)) = 2 ^ (8 * rest.length) * 256 := by
      rw [Nat.mul_succ, pow_add]
      norm_num
    simp only [bval, List.length_cons]
    rw [hp]
    omega

/-- The fold inside `scriptint_parse` never wraps while the accumulated
value stays below `2^63`: it computes the plain little-endian sum. -/
theorem parse_fold (v : List Nat) (hv : ∀ b ∈ v, b < 256) :
    ∀ (x : Int) (s : Nat), 0 ≤ x → x + (bval v : Int) * 2 ^ s < 2 ^ 63 →
      v.foldl parseStep (x, s) = (x + (bval v : Int) * 2 ^ s, s + 8 * v.length) := by
  induction v with
  | nil =>
    intro x s hx hlt
    simp [bval]
  | cons b rest ih =>
    intro x s hx hlt
    have hrest : ∀ y ∈ rest, y < 256 := fun y hy => hv y (List.mem_cons_of_mem _ hy)
    have h2s : (0 : Int) < 2 ^ s := by positivity
    have h63 : (0 : Int) < 2 ^ 63 := by positivity
    have hbv : (bval (b :: rest) : Int) = (b : Int) + 256 * (bval rest : Int) := by
      simp [bval]
    have hble : (b : Int) ≤ (bval (b :: rest) : Int) := by
      rw [hbv]
      have : (0 : Int) ≤ (bval rest : Int) := Int.natCast_nonneg _
      omega
    have hb2 : (0 : Int) ≤ (b : Int) * 2 ^ s := by positivity
    have hb3 : (b : Int) * 2 ^ s ≤ (bval (b :: rest) : Int) * 2 ^ s :=
      mul_le_mul_of_nonneg_right hble (le_of_lt h2s)
    have hbvnn : (0 : Int) ≤ (bval (b :: rest) : Int) * 2 ^ s := by positivity
    have w1 : wrap64 ((b : Int) * 2 ^ s) = (b : Int) * 2 ^ s :=
      wrap64_eq_self (by linarith) (by linarith)
    have w2 : wrap64 (x + (b : Int) * 2 ^ s) = x + (b : Int) * 2 ^ s :=
      wrap64_eq_self (by linarith) (by linarith)
    have hpow : (2 : Int) ^ (s + 8) = 2 ^ s * 256 := by
      rw [pow_add]
      norm_num
    have hsum : x + (b : Int) * 2 ^ s + (bval rest : Int) * 2 ^ (s + 8)
        = x + (bval (b :: rest) : Int) * 2 ^ s := by
      rw [hpow, hbv]
      ring
    show rest.foldl parseStep (parseStep (x, s) b) = _
    rw [show parseStep (x, s) b = (x + (b : Int) * 2 ^ s, s + 8) from by
      simp [parseStep, w1, w2]]
    rw [ih hrest _ _ (by linarith) (by rw [hsum]; exact hlt)]
    rw [hsum, List.length_cons]
    simp only [Prod.mk.injEq]
    refine ⟨by ring, by ring⟩

theorem encodeMag_succ (fuel a : Nat) (neg : Bool) :
    encodeMag (fuel + 1) a neg =
      if 255 < a then (a % 256) :: encodeMag fuel (a / 256) neg
      else if a &&& 128 ≠ 0 then [a, if neg then 128 else 0]
      else [a + (if neg then 128 else 0)] := rfl

/-- The encoder meets `EncSpec` for every positive magnitude that fits the
fuel. -/
theorem encodeMag_spec : ∀ (fuel a : Nat) (neg : Bool), 1 ≤ a → a < 256 ^ fuel →
    EncSpec a neg (encodeMag fuel a neg) := by
  intro fuel
  induction fuel with
  | zero =>
    intro a neg h1 h2
    simp at h2
    omega
  | succ fuel ih =>
    intro a neg h1 h2
    rw [encodeMag_succ]
    by_cases hbig : 255 < a
    · -- while-loop case: emit the low byte, recurse on the rest
      rw [if_pos hbig]
      have ha1 : 1 ≤ a / 256 := by omega
      have ha2 : a / 256 < 256 ^ fuel := by
        have hlt : a < 256 ^ fuel * 256 := by
          rw [← pow_succ]
          exact h2
        exact (Nat.div_lt_iff_lt_mul (by norm_num)).mpr hlt
      obtain ⟨ne', bytes', val', lt', low', last', min'⟩ := ih (a / 256) neg ha1 ha2
      have hlp : 1 ≤ (encodeMag fuel (a / 256) neg).length := List.length_pos.mpr ne'
      set L' := encodeMag fuel (a / 256) neg with hL'
      refine ⟨List.cons_ne_nil _ _, ?_, ?_, ?_, ?_, ?_, ?_⟩
      · intro x hx
        rcases List.mem_cons.mp hx with h | h
        · rw [h]
          exact Nat.mod_lt a (by norm_num)
        · exact bytes' x h
      · simp only [bval, List.length_cons]
        rw [val']
        have h8 : 8 * (L'.length + 1) - 1 = (8 * L'.length - 1) + 8 := by omega
        rw [h8, pow_add]
        norm_num
        cases neg <;> simp <;> omega
      · simp only [List.length_cons]
        have h8 : 8 * (L'.length + 1) - 1 = (8 * L'.length - 1) + 8 := by omega
        rw [h8, pow_add]
        norm_num
        omega
      · intro _
        simp only [List.length_cons, Nat.add_sub_cancel]
        by_cases hl2 : 2 ≤ L'.length
        · have hlow := low' hl2
          have h8 : 8 * L'.length - 1 = (8 * (L'.length - 1) - 1) + 8 := by omega
          rw [h8, pow_add]
          norm_num
          omega
        · have hone : L'.length = 1 := by omega
          rw [hone]
          norm_num
          omega
      · rw [getLastD_cons_ne_nil ne']
        exact last'
      · rcases min' with h | ⟨hl2, hsec⟩
        · left
          rw [getLastD_cons_ne_nil ne']
          exact h
        · right
          refine ⟨by simp only [List.length_cons]; omega, ?_⟩
          simp only [List.length_cons]
          have hidx : L'.length + 1 - 2 = (L'.length - 2) + 1 := by omega
          rw [hidx, List.getD_cons_succ]
          exact hsec
    · have ha256 : a < 256 := by omega
      rw [if_neg hbig]
      by_cases hand : a &&& 128 ≠ 0
      · -- the natural high bit is set: append a pure sign byte
        rw [if_pos hand]
        have h128 : 128 ≤ a := by
          by_cases h : 128 ≤ a
          · exact h
          · rw [land128 ha256, if_neg h] at hand
            exact absurd rfl hand
        refine ⟨by simp, ?_, ?_, ?_, ?_, ?_, ?_⟩
        · intro x hx
          simp at hx
          rcases hx with h | h <;> rw [h]
          · exact ha256
          · cases neg <;> norm_num
        · simp only [bval, List.length_cons, List.length_nil]
          cases neg <;> norm_num
        · norm_num
          omega
        · intro _
          norm_num
          exact h128
        · cases neg <;> simp [List.getLastD_cons]
        · right
          refine ⟨by norm_num, ?_⟩
          simpa using hand
      · -- the high bit is free: fold the sign into the magnitude byte
        rw [if_neg hand]
        rw [not_not] at hand
        have hlt128 : a < 128 := by
          by_cases h : 128 ≤ a
          · rw [land128 ha256, if_pos h] at hand
            cases hand
          · omega
        refine ⟨by simp, ?_, ?_, ?_, ?_, ?_, ?_⟩
        · intro x hx
          cases neg <;> simp at hx <;> rw [hx] <;> omega
        · simp only [bval, List.length_cons, List.length_nil]
          cases neg <;> norm_num
        · norm_num
          omega
        · intro h
          norm_num at h
        · cases neg <;> norm_num
          · exact hand
          · rw [land128 (by omega : a + 128 < 256), if_pos (by omega)]
        · left
          cases neg <;> norm_num <;> rw [land127] <;> omega

/-- For byte strings of at most 7 bytes nothing wraps: `scriptint_parse`
computes the little-endian value, negated (below the sign bit) when the
final byte's high bit is set. -/
theorem scriptint_parse_spec (v : List Nat) (hne : v ≠ []) (hv : ∀ b ∈ v, b < 256)
    (hlen : v.length ≤ 7) :
    scriptint_parse v =
      if v.getLastD 0 &&& 128 ≠ 0 then
        -(((bval v % 2 ^ (8 * v.length - 1) : Nat)) : Int)
      else (bval v : Int) := by
  have hb : bval v < 2 ^ (8 * v.length) := bval_lt v hv
  have hple : (2 : Nat) ^ (8 * v.length) ≤ 2 ^ 56 :=
    Nat.pow_le_pow_right (by norm_num) (by omega)
  have hlt63 : (bval v : Int) < 2 ^ 63 := by
    calc (bval v : Int) < ((2 ^ (8 * v.length) : Nat) : Int) := by exact_mod_cast hb
      _ ≤ ((2 ^ 56 : Nat) : Int) := by exact_mod_cast hple
      _ < 2 ^ 63 := by norm_num
  have hfold := parse_fold v hv 0 0 le_rfl (by simpa using hlt63)
  have hst : scriptint_parse v =
      (if v.getLastD 0 &&& 128 ≠ 0 then
        -(Int.land (v.foldl parseStep (0, 0)).1
          (wrap64 (wrap64 (2 ^ ((v.foldl parseStep (0, 0)).2 - 1)) - 1)))
      else (v.foldl parseStep (0, 0)).1) := rfl
  rw [hst, hfold]
  simp only [zero_add, pow_zero, mul_one]
  by_cases hc : v.getLastD 0 &&& 128 ≠ 0
  · rw [if_pos hc, if_pos hc]
    have hp55 : (2 : Int) ^ (8 * v.length - 1) ≤ 2 ^ 55 :=
      pow_le_pow_right (by norm_num) (by omega)
    have hp0 : (0 : Int) < 2 ^ (8 * v.length - 1) :=
      pow_pos (by norm_num) _
    have h55 : (2 : Int) ^ 55 < 2 ^ 63 := by norm_num
    have h63p : (0 : Int) < 2 ^ 63 := by positivity
    have hm1 : wrap64 ((2 : Int) ^ (8 * v.length - 1)) = 2 ^ (8 * v.length - 1) :=
      wrap64_eq_self (by linarith) (by linarith)
    have hm2 : wrap64 ((2 : Int) ^ (8 * v.length - 1) - 1) =
        2 ^ (8 * v.length - 1) - 1 :=
      wrap64_eq_self (by linarith) (by linarith)
    rw [hm1, hm2]
    have hcast : ((2 : Int) ^ (8 * v.length - 1) - 1) =
        (((2 ^ (8 * v.length - 1) - 1 : Nat)) : Int) := by
      rw [Nat.cast_sub Nat.one_le_two_pow]
      push_cast
      ring
    rw [hcast, int_land_ofNat, Nat.and_pow_two_sub_one_eq_mod]
  · rw [if_neg hc, if_neg hc]

/-- Round-trip engine for C1 and C6: for nonzero `n` of magnitude at most
`2^31`, the encoding is nonempty, short, and decodes back to `n` under any
admissible `max_size` and either minimality flag. -/
theorem scriptint_vec_ok (n : Int) (hn : n ≠ 0) (ha : n.natAbs ≤ 2 ^ 31) :
    scriptint_vec n ≠ [] ∧
    (scriptint_vec n).length ≤ 5 ∧
    (n.natAbs ≤ 2 ^ 31 - 1 → (scriptint_vec n).length ≤ 4) ∧
    ∀ (max_size : Nat) (minimal : Bool), (scriptint_vec n).length ≤ max_size →
      read_scriptint_size (scriptint_vec n) max_size minimal = .ok n := by
  have h1 : 1 ≤ n.natAbs := Int.natAbs_pos.mpr hn
  have h2 : n.natAbs < 256 ^ 8 := by
    have e31 : (2 : Nat) ^ 31 = 2147483648 := by norm_num
    have e8 : (256 : Nat) ^ 8 = 18446744073709551616 := by norm_num
    omega
  obtain ⟨ne, bytes, val, ltb, low, last, minim⟩ :=
    encodeMag_spec 8 n.natAbs (decide (n < 0)) h1 h2
  have hvec : scriptint_vec n = encodeMag 8 n.natAbs (decide (n < 0)) := by
    rw [scriptint_vec, if_neg hn]
  set L := encodeMag 8 n.natAbs (decide (n < 0)) with hL
  have hlen1 : 1 ≤ L.length := List.length_pos.mpr ne
  have e31 : (2 : Nat) ^ 31 = 2147483648 := by norm_num
  have hlen5 : L.length ≤ 5 := by
    by_contra hgt
    push_neg at hgt
    have hlow := low (by omega)
    have hge : (2 : Nat) ^ 39 ≤ 2 ^ (8 * (L.length - 1) - 1) :=
      Nat.pow_le_pow_right (by norm_num) (by omega)
    have e39 : (2 : Nat) ^ 39 = 549755813888 := by norm_num
    omega
  have hlen4 : n.natAbs ≤ 2 ^ 31 - 1 → L.length ≤ 4 := by
    intro ha4
    by_contra hgt
    push_neg at hgt
    have hlow := low (by omega)
    have hge : (2 : Nat) ^ 31 ≤ 2 ^ (8 * (L.length - 1) - 1) :=
      Nat.pow_le_pow_right (by norm_num) (by omega)
    omega
  have hread : ∀ (max_size : Nat) (minimal : Bool), L.length ≤ max_size →
      read_scriptint_size L max_size minimal = .ok n := by
    intro ms m hms
    have hparse : scriptint_parse L = n := by
      rw [scriptint_parse_spec L ne bytes (by omega)]
      by_cases hneg : n < 0
      · have hd : decide (n < 0) = true := by simp [hneg]
        simp only [hd, if_true] at val last
        rw [if_pos (by rw [last]; norm_num)]
        rw [val, Nat.add_mod_right, Nat.mod_eq_of_lt ltb]
        omega
      · have hd : decide (n < 0) = false := by simp [hneg]
        simp only [hd, Bool.false_eq_true, if_false, Nat.add_zero] at val last
        rw [if_neg (by rw [last]; norm_num)]
        rw [val]
        omega
    unfold read_scriptint_size
    rw [if_neg (by omega : ¬L.length > ms), if_neg (by omega : ¬L.length = 0)]
    cases m with
    | false =>
      rw [if_neg (by simp : ¬((false : Bool) = true)), hparse]
    | true =>
      rw [if_pos rfl]
      rcases minim with hm | ⟨hm2, hmsec⟩
      · rw [if_neg hm, hparse]
      · by_cases hc : L.getLastD 0 &&& 127 = 0
        · rw [if_pos hc, if_neg (not_or.mpr ⟨by omega, hmsec⟩), hparse]
        · rw [if_neg hc, hparse]
  refine ⟨by rw [hvec]; exact ne, by rw [hvec]; exact hlen5,
    fun h => by rw [hvec]; exact hlen4 h,
    fun ms m hms => by rw [hvec] at hms ⊢; exact hread ms m hms⟩

/-- C1: scriptint codec round trip: for every `n` in the signed 32-bit
range, decoding the canonical encoding of `n` with `max_size 8` and
minimality required returns `n`. -/
theorem scriptint_roundtrip_32bit (n : Int)
    (h1 : -(2 ^ 31) ≤ n) (h2 : n ≤ 2 ^ 31 - 1) :
    read_scriptint_size (scriptint_vec n) 8 true = .ok n := by
  by_cases hn : n = 0
  · rw [hn]
    decide
  · have ha : n.natAbs ≤ 2 ^ 31 := by
      have e : (2 : Int) ^ 31 = 2147483648 := by norm_num
      have e2 : (2 : Nat) ^ 31 = 2147483648 := by norm_num
      omega
    obtain ⟨-, hlen5, -, hread⟩ := scriptint_vec_ok n hn ha
    exact hread 8 true (by omega)

/-- Witness for C1 at `n = -2^31`, the extreme of the claimed range. -/
theorem scriptint_roundtrip_32bit_witness :
    (-(2 ^ 31) ≤ (-2147483648 : Int) ∧ (-2147483648 : Int) ≤ 2 ^ 31 - 1) ∧
    read_scriptint_size (scriptint_vec (-2147483648)) 8 true = .ok (-2147483648) :=
  ⟨⟨by norm_num, by norm_num⟩,
    scriptint_roundtrip_32bit (-2147483648) (by norm_num) (by norm_num)⟩

/-- Counterexample to C6 as stated: `n = -2^31` lies in the signed 32-bit
range, but its canonical encoding takes 5 bytes
(`[0x00, 0x00, 0x00, 0x80, 0x80]`), so decoding with `max_size 4` fails
with `NumericOverflow` instead of returning `n`. -/
theorem decode4_int32_min_cex :
    read_scriptint_size (scriptint_vec (-2147483648)) 4 true =
      .error .NumericOverflow ∧
    -(2 ^ 31) ≤ (-2147483648 : Int) :=
  ⟨by decide, by norm_num⟩

/-- C6 (amended): for `max_size = 4` the decodable domain of canonical
encodings is the signed 32-bit range without its minimum: for every `n`
with `-2^31 < n ≤ 2^31 - 1`, decoding the canonical encoding of `n` with
`max_size 4` and minimality required returns `n`, and `pushstr(encode(n))`
followed by `topnum(-1, true)` yields `n`; `n = -2^31` itself encodes to 5
bytes and overflows. -/
theorem decode4_roundtrip_above_min (n : Int)
    (h1 : -(2 ^ 31) < n) (h2 : n ≤ 2 ^ 31 - 1) :
    read_scriptint_size (scriptint_vec n) 4 true = .ok n ∧
    (Stack.new.pushstr (scriptint_vec n)).topnum (-1) true = .ok n := by
  have htop : (Stack.new.pushstr (scriptint_vec n)).topnum (-1) true =
      read_scriptint (scriptint_vec n) 4 true := rfl
  by_cases hn : n = 0
  · rw [hn]
    exact ⟨by decide, by decide⟩
  · have ha : n.natAbs ≤ 2 ^ 31 - 1 := by
      have e : (2 : Int) ^ 31 = 2147483648 := by norm_num
      have e2 : (2 : Nat) ^ 31 = 2147483648 := by norm_num
      omega
    obtain ⟨-, -, hlen4, hread⟩ := scriptint_vec_ok n hn (by omega)
    have hr : read_scriptint_size (scriptint_vec n) 4 true = .ok n :=
      hread 4 true (hlen4 ha)
    refine ⟨hr, ?_⟩
    rw [htop]
    unfold read_scriptint
    rw [hr]

/-- Witness for C6 (amended) at `n = 2^31 - 1`. -/
theorem decode4_roundtrip_above_min_witness :
    (-(2 ^ 31) < (2147483647 : Int) ∧ (2147483647 : Int) ≤ 2 ^ 31 - 1) ∧
    (read_scriptint_size (scriptint_vec 2147483647) 4 true = .ok 2147483647 ∧
      (Stack.new.pushstr (scriptint_vec 2147483647)).topnum (-1) true =
        .ok 2147483647) :=
  ⟨⟨by norm_num, by norm_num⟩,
    decode4_roundtrip_above_min 2147483647 (by norm_num) (by norm_num)⟩

theorem condInv_push (cs : ConditionStack) (l : List Bool) (v : Bool)
    (h : CondInv cs l) : CondInv (cs.push v) (l ++ [v]) := by
  obtain ⟨hsz, hcase⟩ := h
  constructor
  · simp [ConditionStack.push, hsz]
  · rcases hcase with ⟨hffp, hall⟩ | ⟨p, l₁, l₂, hffp, hdecomp, hlen, hall⟩
    · by_cases hv : v = false
      · right
        refine ⟨cs.size, l, [], ?_, ?_, ?_, hall⟩
        · simp [ConditionStack.push, hffp, hv]
        · rw [hv]
        · omega
      · left
        have hv' : v = true := by
          revert hv
          cases v <;> simp
        refine ⟨?_, ?_⟩
        · simp [ConditionStack.push, hffp, hv]
        · intro b hb
          rcases List.mem_append.mp hb with hm | hm
          · exact hall b hm
          · simp at hm
            rw [hm, hv']
    · right
      refine ⟨p, l₁, l₂ ++ [v], ?_, ?_, hlen, hall⟩
      · simp [ConditionStack.push, hffp]
      · rw [hdecomp]
        simp

theorem condInv_pop (cs : ConditionStack) (l : List Bool)
    (h : CondInv cs l) : CondInv cs.pop.1 l.dropLast := by
  obtain ⟨hsz, hcase⟩ := h
  by_cases h0 : cs.size = 0
  · have hl : l = [] := by
      rw [h0] at hsz
      exact List.length_eq_zero.mp hsz.symm
    subst hl
    have hpop : cs.pop = (cs, false) := by
      simp [ConditionStack.pop, h0]
    rw [hpop]
    exact ⟨hsz, hcase⟩
  · have hlne : l ≠ [] := by
      intro hnil
      rw [hnil] at hsz
      simp at hsz
      exact h0 hsz
    have hlpos : 1 ≤ l.length := List.length_pos.mpr hlne
    have hpop : cs.pop.1 = ⟨cs.size - 1,
        if cs.first_false_pos = some (cs.size - 1) then none
        else cs.first_false_pos⟩ := by
      simp [ConditionStack.pop, h0]
    rw [hpop]
    rcases hcase with ⟨hffp, hall⟩ | ⟨p, l₁, l₂, hffp, hdecomp, hlen, hall⟩
    · refine ⟨?_, Or.inl ⟨?_, ?_⟩⟩
      · simp only [List.length_dropLast]
        omega
      · simp [hffp]
      · intro b hb
        exact hall b ((List.dropLast_sublist l).subset hb)
    · have hlsum : l.length = l₁.length + 1 + l₂.length := by
        rw [hdecomp]
        simp
        omega
      by_cases hp : p = cs.size - 1
      · have hl₂ : l₂ = [] := List.length_eq_zero.mp (by omega)
        subst hl₂
        refine ⟨?_, Or.inl ⟨?_, ?_⟩⟩
        · simp only [List.length_dropLast]
          omega
        · rw [hffp, if_pos (by rw [hp])]
        · intro b hb
          rw [hdecomp, List.dropLast_concat] at hb
          exact hall b hb
      · have hl₂ne : l₂ ≠ [] := by
          intro hnil
          subst hnil
          simp at hlsum
          omega
        refine ⟨?_, Or.inr ⟨p, l₁, l₂.dropLast, ?_, ?_, hlen, hall⟩⟩
        · simp only [List.length_dropLast]
          omega
        · rw [hffp, if_neg (by simp [hp])]
        · rw [hdecomp, List.dropLast_append_cons]
          congr 1
          cases l₂ with
          | nil => exact absurd rfl hl₂ne
          | cons c t => rfl

theorem condInv_toggle (cs : ConditionStack) (l : List Bool)
    (h : CondInv cs l) : CondInv cs.toggle_top.1 (refStep l .toggle_top) := by
  obtain ⟨hsz, hcase⟩ := h
  by_cases h0 : cs.size = 0
  · have hl : l = [] := by
      rw [h0] at hsz
      exact List.length_eq_zero.mp hsz.symm
    subst hl
    have htog : cs.toggle_top = (cs, false) := by
      simp [ConditionStack.toggle_top, h0]
    rw [htog]
    exact ⟨hsz, hcase⟩
  · have hlne : l ≠ [] := by
      intro hnil
      rw [hnil] at hsz
      simp at hsz
      exact h0 hsz
    have hlpos : 1 ≤ l.length := List.length_pos.mpr hlne
    have hstep : refStep l .toggle_top = l.dropLast ++ [!(l.getLastD false)] := by
      simp [refStep, hlne]
    have htog : cs.toggle_top.1 = ⟨cs.size,
        if cs.first_false_pos = none then some (cs.size - 1)
        else if cs.first_false_pos = some (cs.size - 1) then none
        else cs.first_false_pos⟩ := by
      simp [ConditionStack.toggle_top, h0]
    rw [hstep, htog]
    rcases hcase with ⟨hffp, hall⟩ | ⟨p, l₁, l₂, hffp, hdecomp, hlen, hall⟩
    · have hlast : l.getLastD false = true := by
        rw [List.getLastD_eq_getLast?, List.getLast?_eq_getLast l hlne]
        exact hall _ (List.getLast_mem hlne)
      refine ⟨?_, Or.inr ⟨cs.size - 1, l.dropLast, [], ?_, ?_, ?_, ?_⟩⟩
      · simp only [List.length_append, List.length_dropLast, List.length_cons,
          List.length_nil]
        omega
      · simp [hffp]
      · rw [hlast]
        rfl
      · simp only [List.length_dropLast]
        omega
      · intro b hb
        exact hall b ((List.dropLast_sublist l).subset hb)
    · have hlsum : l.length = l₁.length + 1 + l₂.length := by
        rw [hdecomp]
        simp
        omega
      by_cases hp : p = cs.size - 1
      · have hl₂ : l₂ = [] := List.length_eq_zero.mp (by omega)
        subst hl₂
        have hlast : l.getLastD false = false := by
          rw [hdecomp]
          exact List.getLastD_concat _ _ _
        refine ⟨?_, Or.inl ⟨?_, ?_⟩⟩
        · simp only [List.length_append, List.length_dropLast, List.length_cons,
            List.length_nil]
          omega
        · rw [hffp]
          simp [hp]
        · intro b hb
          rcases List.mem_append.mp hb with hm | hm
          · rw [hdecomp, List.dropLast_concat] at hm
            exact hall b hm
          · rw [hlast] at hm
            simp at hm
            exact hm
      · have hl₂ne : l₂ ≠ [] := by
          intro hnil
          subst hnil
          simp at hlsum
          omega
        refine ⟨?_, Or.inr ⟨p, l₁, l₂.dropLast ++ [!(l.getLastD false)], ?_, ?_,
          hlen, hall⟩⟩
        · simp only [List.length_append, List.length_dropLast, List.length_cons,
            List.length_nil]
          omega
        · rw [hffp]
          simp [hp]
        · set x := !(l.getLastD false) with hx
          conv_lhs => rw [hdecomp, List.dropLast_append_cons]
          cases l₂ with
          | nil => exact absurd rfl hl₂ne
          | cons c t => simp

theorem condInv_run (ops : List CondOp) :
    ∀ (cs : ConditionStack) (l : List Bool), CondInv cs l →
      CondInv (ops.foldl condStep cs) (ops.foldl refStep l) := by
  induction ops with
  | nil =>
    intro cs l h
    exact h
  | cons op rest ih =>
    intro cs l h
    simp only [List.foldl_cons]
    apply ih
    cases op with
    | push v => exact condInv_push cs l v h
    | pop => exact condInv_pop cs l h
    | toggle_top => exact condInv_toggle cs l h

/-- C2: the `ConditionStack` refines the boolean-list model: for every
finite sequence of `push(bool)`, `pop()`, `toggle_top()` calls applied to a
`ConditionStack` created by `new()`, `all_true()` returns `true` exactly
when the reference list — built by the same call sequence, with `push`
appending, `pop` removing the last element if any, `toggle_top` negating
the last element if any — contains no `false` entry. -/
theorem conditionStack_refines_list (ops : List CondOp) :
    (condRun ops).all_true = true ↔ false ∉ refRun ops := by
  have hinv := condInv_run ops ConditionStack.new [] ⟨rfl, Or.inl ⟨rfl, by simp⟩⟩
  obtain ⟨hsz, hcase⟩ := hinv
  rcases hcase with ⟨hffp, hall⟩ | ⟨p, l₁, l₂, hffp, hdecomp, hlen, hall⟩
  · constructor
    · intro _ hmem
      have hfalse := hall _ hmem
      simp at hfalse
    · intro _
      simp [condRun, ConditionStack.all_true, hffp]
  · constructor
    · intro htrue
      simp [condRun, ConditionStack.all_true, hffp] at htrue
    · intro hnotmem
      exfalso
      apply hnotmem
      show false ∈ ops.foldl refStep []
      rw [hdecomp]
      simp
